import Mathlib

/-
Verification development for the key-value store layer of the
writing_observer repository (learning_observer/learning_observer/kvs.py).

The Python module is embedded shallowly:
  * Python values passed to / returned from the KVS are modelled by the
    inductive type `PyValue`.  JSON-serializable values are the subset that
    `pyToJson` maps to `some`; the constructor `pyobject` stands for an
    arbitrary Python object that `json.dumps` rejects.  Numbers are
    modelled as integers (the claims do not exercise floating point).
  * The process-wide global `OBJECT_STORE` dict is modelled as an explicit
    state parameter of type `Store` threaded through the operations; a
    Python dict is modelled as an association list with dict update
    semantics (overwrite in place, append new keys, insertion order).
  * Exceptions are modelled by `PyError`; a mutating operation returns the
    new state together with `Option PyError` (`none` = normal return, and
    on an error the returned state is the state at the moment the
    exception was raised, mirroring how the Python globals are left).
  * The Redis connection is modelled by an explicit remote state of type
    `RedisStore`; the string stored by `connection.set(key, json.dumps(v))`
    is represented by its parsed JSON document (type `Json`), so
    `json.loads` on read is `jsonToPy`.  Connection establishment and TTL
    expiry involve real I/O and real time and are not modelled; network
    failures are outside the state space.
  * `copy.deepcopy` and the reference semantics of `OBJECT_STORE[key]` are
    additionally modelled at the level of an explicit heap of Python
    objects (`Heap`, `PyObj`, `deepcopyA`) so that the deep-copy-on-read
    isolation property is meaningful; at the value level `copy_deepcopy`
    rebuilds the tree.
-/

set_option maxHeartbeats 1600000

/-- A Python value, as handed to or returned from the KVS.  The
`pyobject` constructor models an arbitrary object that is not
JSON-serializable (for example a function or a set). -/
inductive PyValue where
  | none
  | bool (b : Bool)
  | int (n : Int)
  | str (s : String)
  | list (elems : List PyValue)
  | dict (entries : List (String × PyValue))
  | pyobject (desc : String)
deriving Repr

/-- A parsed JSON document, the abstract form of the string produced by
json.dumps and consumed by json.loads. -/
inductive Json where
  | null
  | bool (b : Bool)
  | int (n : Int)
  | str (s : String)
  | arr (elems : List Json)
  | obj (members : List (String × Json))
deriving Repr

/-- The Python exceptions the embedded code can raise.  `startupCheck`
models learning_observer.prestartup.StartupCheck. -/
inductive PyError where
  | keyError (k : String)
  | typeError (msg : String)
  | assertionError (msg : String)
  | startupCheck (msg : String)
deriving Repr, DecidableEq

mutual

/-- json.dumps: serialize a Python value to a JSON document; `none` models
the TypeError raised on a value that is not JSON serializable. -/
def pyToJson : PyValue → Option Json
  | .none => some .null
  | .bool b => some (.bool b)
  | .int n => some (.int n)
  | .str s => some (.str s)
  | .list xs => (pyToJsonL xs).map Json.arr
  | .dict kvs => (pyToJsonD kvs).map Json.obj
  | .pyobject _ => Option.none

/-- json.dumps on a Python list: serialize each element in order. -/
def pyToJsonL : List PyValue → Option (List Json)
  | [] => some []
  | x :: xs =>
    match pyToJson x with
    | Option.none => Option.none
    | some j => (pyToJsonL xs).map (fun js => j :: js)

/-- json.dumps on a Python dict: serialize each value in order. -/
def pyToJsonD : List (String × PyValue) → Option (List (String × Json))
  | [] => some []
  | kv :: kvs =>
    match pyToJson kv.2 with
    | Option.none => Option.none
    | some j => (pyToJsonD kvs).map (fun js => (kv.1, j) :: js)

end

mutual

/-- json.loads: parse a JSON document back into a Python value. -/
def jsonToPy : Json → PyValue
  | .null => .none
  | .bool b => .bool b
  | .int n => .int n
  | .str s => .str s
  | .arr js => .list (jsonToPyL js)
  | .obj kjs => .dict (jsonToPyD kjs)

/-- json.loads on a JSON array. -/
def jsonToPyL : List Json → List PyValue
  | [] => []
  | j :: js => jsonToPy j :: jsonToPyL js

/-- json.loads on a JSON object. -/
def jsonToPyD : List (String × Json) → List (String × PyValue)
  | [] => []
  | kj :: kjs => (kj.1, jsonToPy kj.2) :: jsonToPyD kjs

end

mutual

/-- copy.deepcopy at the value level: rebuild the whole tree. -/
def copy_deepcopy : PyValue → PyValue
  | .none => .none
  | .bool b => .bool b
  | .int n => .int n
  | .str s => .str s
  | .list xs => .list (copy_deepcopyL xs)
  | .dict kvs => .dict (copy_deepcopyD kvs)
  | .pyobject d => .pyobject d

/-- copy.deepcopy of the elements of a list. -/
def copy_deepcopyL : List PyValue → List PyValue
  | [] => []
  | x :: xs => copy_deepcopy x :: copy_deepcopyL xs

/-- copy.deepcopy of the entries of a dict. -/
def copy_deepcopyD : List (String × PyValue) → List (String × PyValue)
  | [] => []
  | kv :: kvs => (kv.1, copy_deepcopy kv.2) :: copy_deepcopyD kvs

end

/-- A Python dict with keys of type String and values of type V, in
insertion order. -/
abbrev PyDict (V : Type) := List (String × V)

/-- Python `k in d`. -/
def dictContains {V : Type} (d : PyDict V) (k : String) : Bool :=
  d.any (fun kv => kv.1 == k)

/-- Python `d[k] = v`: overwrite in place if the key is present, else
append (dicts keep insertion order). -/
def dictSet {V : Type} (d : PyDict V) (k : String) (v : V) : PyDict V :=
  if dictContains d k then
    d.map (fun kv => if kv.1 == k then (k, v) else kv)
  else
    d ++ [(k, v)]

/-- Python `d.get(k, None)`-style lookup, as an Option. -/
def dictGet {V : Type} (d : PyDict V) (k : String) : Option V :=
  d.lookup k

/-- The state of the module-level global `OBJECT_STORE = dict()`. -/
abbrev Store := PyDict PyValue

/-- The state held by the remote Redis server: each key maps to the JSON
document whose serialization was stored by `connection.set`. -/
abbrev RedisStore := PyDict Json

/-- An apostrophe, kept out of string literals. -/
def apos : String := String.singleton (Char.ofNat 39)

/-- Message of the TypeError raised by json.dumps on an unserializable
value (the Python message also names the offending type). -/
def jsonDumpsMsg : String := "Object is not JSON serializable"

/-- The TypeError raised by json.dumps on an unserializable value. -/
def jsonDumpsError : PyError := .typeError jsonDumpsMsg

/-- The AssertionError raised by `assert isinstance(key, str)`. -/
def kvsKeyError : PyError := .assertionError "KVS keys must be strings"

/-- An InMemoryKVS instance.  In the source the class keeps no per-instance
storage state (all storage lives in the global `OBJECT_STORE`); the id
only models object identity so that distinct instances can be named. -/
structure InMemoryKVS where
  instanceId : Nat

/-- InMemoryKVS.__getitem__:
`return copy.deepcopy(OBJECT_STORE.get(key, None))`. -/
def InMemoryKVS.get (_self : InMemoryKVS) (st : Store) (key : String) : PyValue :=
  copy_deepcopy ((dictGet st key).getD .none)

/-- InMemoryKVS.set: `json.dumps(value)` (fail early if not JSON), then
`assert isinstance(key, str)`, then `OBJECT_STORE[key] = value`.  Returns
the new global store and the raised exception, if any. -/
def InMemoryKVS.set (_self : InMemoryKVS) (st : Store) (key : PyValue)
    (value : PyValue) : Store × Option PyError :=
  match pyToJson value with
  | Option.none => (st, some jsonDumpsError)
  | some _ =>
    match key with
    | .str k => (dictSet st k value, Option.none)
    | _ => (st, some kvsKeyError)

/-- InMemoryKVS.keys: `return list(OBJECT_STORE.keys())`. -/
def InMemoryKVS.keys (_self : InMemoryKVS) (st : Store) : List String :=
  st.map Prod.fst

/-- InMemoryKVS.clear: `OBJECT_STORE = dict()`. -/
def InMemoryKVS.clear (_self : InMemoryKVS) (_st : Store) : Store :=
  []

/-- A _RedisKVS instance: carries only the expiration passed to
`connection.set` (None for the persistent variant). -/
structure _RedisKVS where
  expire : PyValue

/-- _RedisKVS.__getitem__: `item = connection.get(key)`; if present,
`json.loads(item)`, else None. -/
def _RedisKVS.get (_self : _RedisKVS) (rst : RedisStore) (key : String) : PyValue :=
  match dictGet rst key with
  | some item => jsonToPy item
  | Option.none => .none

/-- _RedisKVS.set: `json.dumps(value)` (fail early), then
`assert isinstance(key, str)`, then
`connection.set(key, json.dumps(value), expire=self.expire)`.  The stored
string is represented by its JSON document; TTL is not modelled. -/
def _RedisKVS.set (_self : _RedisKVS) (rst : RedisStore) (key : PyValue)
    (value : PyValue) : RedisStore × Option PyError :=
  match pyToJson value with
  | Option.none => (rst, some jsonDumpsError)
  | some _ =>
    match key with
    | .str k =>
      match pyToJson value with
      | some j => (dictSet rst k j, Option.none)
      | Option.none => (rst, some jsonDumpsError)
    | _ => (rst, some kvsKeyError)

/-- _RedisKVS.keys: `connection.keys("*")`. -/
def _RedisKVS.keys (_self : _RedisKVS) (rst : RedisStore) : List String :=
  rst.map Prod.fst

/-- _KVS.dump (filename=None) as inherited by InMemoryKVS:
`data = {}; for key in await self.keys(): data[key] = await self[key];
return data`.  Writing the optional file is I/O and is not modelled. -/
def InMemoryKVS.dump (self : InMemoryKVS) (st : Store) : PyDict PyValue :=
  (InMemoryKVS.keys self st).foldl
    (fun data key => dictSet data key (InMemoryKVS.get self st key)) []

/-- _KVS.load as inherited by InMemoryKVS, after json.load has produced the
mapping `data`: `for key, value in data.items(): await self.set(key, value)`.
Keys coming from a parsed JSON object are strings.  Returns the store as
left by the loop together with the first raised exception, if any. -/
def InMemoryKVS.load (self : InMemoryKVS) (st : Store)
    (data : List (String × PyValue)) : Store × Option PyError :=
  match data with
  | [] => (st, Option.none)
  | (k, v) :: rest =>
    match InMemoryKVS.set self st (.str k) v with
    | (st', Option.none) => InMemoryKVS.load self st' rest
    | (st', some e) => (st', some e)

/-- _KVS.dump as inherited by the Redis variants. -/
def _RedisKVS.dump (self : _RedisKVS) (rst : RedisStore) : PyDict PyValue :=
  (_RedisKVS.keys self rst).foldl
    (fun data key => dictSet data key (_RedisKVS.get self rst key)) []

/-- _KVS.load as inherited by the Redis variants. -/
def _RedisKVS.load (self : _RedisKVS) (rst : RedisStore)
    (data : List (String × PyValue)) : RedisStore × Option PyError :=
  match data with
  | [] => (rst, Option.none)
  | (k, v) :: rest =>
    match _RedisKVS.set self rst (.str k) v with
    | (rst', Option.none) => _RedisKVS.load self rst' rest
    | (rst', some e) => (rst', some e)

/-- The three concrete backend classes of the module. -/
inductive BackendClass where
  | inMemoryKVS
  | ephemeralRedisKVS
  | persistentRedisKVS
deriving Repr, DecidableEq

/-- The KVS_MAP dict built inside kvs_startup_check, in source order. -/
def KVS_MAP : List (String × BackendClass) :=
  [("stub", .inMemoryKVS),
   ("redis_ephemeral", .ephemeralRedisKVS),
   ("redis", .persistentRedisKVS)]

/-- Python `d[k]` on a settings dict: KeyError when the key is missing,
TypeError when the subscripted value is not a dict. -/
def pyDictGetItem (d : PyValue) (k : String) : Except PyError PyValue :=
  match d with
  | .dict entries =>
    match entries.lookup k with
    | some v => Except.ok v
    | Option.none => Except.error (.keyError k)
  | _ => Except.error (.typeError "value is not subscriptable by a string key")

/-- Python `k in d` on a settings dict. -/
def pyDictHasKey (d : PyValue) (k : String) : Bool :=
  match d with
  | .dict entries => entries.any (fun kv => kv.1 == k)
  | _ => false

/-- Python `KVS_MAP[t]`: the keys of KVS_MAP are strings, so any
non-string subscript misses and raises KeyError. -/
def kvsMapGetItem (t : PyValue) : Except PyError BackendClass :=
  match t with
  | .str s =>
    match KVS_MAP.lookup s with
    | some c => Except.ok c
    | Option.none => Except.error (.keyError s)
  | _ => Except.error (.keyError "non-string key")

/-- Python `t in KVS_MAP`. -/
def kvsMapHasKey (t : PyValue) : Bool :=
  match t with
  | .str s => (KVS_MAP.lookup s).isSome
  | _ => false

/-- The str() rendering used when a settings value is formatted into an
error message; the claims only exercise string-typed values. -/
def pyValueStr : PyValue → String
  | .str s => s
  | _ => "object"

/-- Python repr of a list of strings, as produced by
`"...".format(list(KVS_MAP.keys()))`. -/
def pyStrListRepr (ks : List String) : String :=
  "[" ++ String.intercalate ", " (ks.map (fun k => apos ++ k ++ apos)) ++ "]"

/-- The StartupCheck message for a configuration with no kvs section. -/
def noKvsMsg : String :=
  "No KVS configured. Please set kvs.type in settings.py\n" ++
  "Look at example settings file to see what" ++ apos ++ "s available."

/-- The StartupCheck message for an unrecognized kvs.type. -/
def unknownKvsMsg (t : PyValue) : String :=
  "Unknown KVS type: " ++ pyValueStr t ++ "\n" ++
  "Look at example settings file to see what" ++ apos ++ "s available. \n" ++
  "Suppported types: " ++ pyStrListRepr (KVS_MAP.map Prod.fst)

/-- The StartupCheck message of the final else branch. -/
def incorrectKvsMsg : String :=
  "KVS incorrectly configured. Please fix the error, and\n" ++
  "then replace this with a more meaningful error message"

/-- The try block of kvs_startup_check:
`KVS = KVS_MAP[learning_observer.settings.settings['kvs']['type']]`. -/
def kvsTryLookup (settings : PyValue) : Except PyError BackendClass := do
  let kvsSection ← pyDictGetItem settings "kvs"
  let t ← pyDictGetItem kvsSection "type"
  kvsMapGetItem t

/-- The re-evaluation of `settings['kvs']['type']` performed inside the
except-KeyError handler by the elif condition. -/
def kvsTypeLookup (settings : PyValue) : Except PyError PyValue := do
  let kvsSection ← pyDictGetItem settings "kvs"
  pyDictGetItem kvsSection "type"

/-- kvs_startup_check.  `kvs0` is the current value of the module global
`KVS`; the result pairs the Python return (or the exception that escaped)
with the value of `KVS` afterwards.  Mirrors the source: the try block
assigns `KVS` and returns True; `except KeyError` first tests
`'kvs' not in settings`, then the elif re-evaluates
`settings['kvs']['type']` (a lookup that can itself raise and escape),
then tests membership in KVS_MAP, else falls through to the generic
message.  A non-KeyError exception from the try block escapes. -/
def kvs_startup_check (settings : PyValue) (kvs0 : Option BackendClass) :
    Except PyError Bool × Option BackendClass :=
  match kvsTryLookup settings with
  | Except.ok cls => (Except.ok true, some cls)
  | Except.error (.keyError _) =>
    if !pyDictHasKey settings "kvs" then
      (Except.error (.startupCheck noKvsMsg), kvs0)
    else
      match kvsTypeLookup settings with
      | Except.error e => (Except.error e, kvs0)
      | Except.ok t =>
        if !kvsMapHasKey t then
          (Except.error (.startupCheck (unknownKvsMsg t)), kvs0)
        else
          (Except.error (.startupCheck incorrectKvsMsg), kvs0)
  | Except.error e => (Except.error e, kvs0)

/-- EphemeralRedisKVS.__init__:
`super().__init__(expire=settings.settings['kvs']['expiry'])` — the
expiry lookup happens at construction time and its KeyError escapes. -/
def EphemeralRedisKVS_init (settings : PyValue) : Except PyError _RedisKVS := do
  let kvsSection ← pyDictGetItem settings "kvs"
  let e ← pyDictGetItem kvsSection "expiry"
  Except.ok ⟨e⟩

/-- PersistentRedisKVS.__init__: `super().__init__(expire=None)`. -/
def PersistentRedisKVS_init : _RedisKVS := ⟨.none⟩

/-- One Python object in the heap-level model of the in-memory backend.
Containers hold references (heap addresses) to their members; dict keys
are immutable strings and are stored inline. -/
inductive PyObj where
  | vnone
  | vbool (b : Bool)
  | vint (n : Int)
  | vstr (s : String)
  | vlist (elems : List Nat)
  | vdict (entries : List (String × Nat))
deriving Repr, DecidableEq

/-- The addresses a heap object refers to. -/
def PyObj.childAddrs : PyObj → List Nat
  | .vlist es => es
  | .vdict kvs => kvs.map Prod.snd
  | _ => []

/-- A heap of Python objects: cells maps addresses to objects (first
match wins, so mutation prepends) and next is the next fresh address. -/
structure Heap where
  cells : List (Nat × PyObj)
  next : Nat
deriving Repr, DecidableEq

/-- The object currently at address a. -/
def Heap.lookupCell (h : Heap) (a : Nat) : Option PyObj :=
  h.cells.lookup a

/-- Allocate a fresh object, returning the new heap and its address. -/
def Heap.alloc (h : Heap) (o : PyObj) : Heap × Nat :=
  (⟨(h.next, o) :: h.cells, h.next + 1⟩, h.next)

/-- Mutate the object at address a in place (Python list or dict
mutation through a reference). -/
def Heap.writeObj (h : Heap) (a : Nat) (o : PyObj) : Heap :=
  ⟨(a, o) :: h.cells, h.next⟩

/-- Heap well-formedness: every allocated address is below next, and
objects only refer to addresses allocated strictly before them (the
acyclic, bottom-up layout produced by building JSON-like values). -/
def Heap.wf (h : Heap) : Prop :=
  ∀ c ∈ h.cells, c.1 < h.next ∧ ∀ b ∈ c.2.childAddrs, b < c.1

mutual

/-- The value tree rooted at address a; fuel bounds the depth. -/
def readVal (cells : List (Nat × PyObj)) : Nat → Nat → Option PyValue
  | 0, _ => Option.none
  | fuel + 1, a =>
    match cells.lookup a with
    | Option.none => Option.none
    | some .vnone => some .none
    | some (.vbool b) => some (.bool b)
    | some (.vint n) => some (.int n)
    | some (.vstr s) => some (.str s)
    | some (.vlist es) => (readValL cells fuel es).map PyValue.list
    | some (.vdict kvs) => (readValD cells fuel kvs).map PyValue.dict
termination_by fuel a => (fuel, 0)

/-- The value trees rooted at a list of addresses. -/
def readValL (cells : List (Nat × PyObj)) : Nat → List Nat → Option (List PyValue)
  | _, [] => some []
  | fuel, a :: as =>
    match readVal cells fuel a with
    | Option.none => Option.none
    | some v => (readValL cells fuel as).map (fun vs => v :: vs)
termination_by fuel as => (fuel, as.length + 1)

/-- The value trees rooted at the addresses of dict entries. -/
def readValD (cells : List (Nat × PyObj)) : Nat → List (String × Nat) →
    Option (List (String × PyValue))
  | _, [] => some []
  | fuel, kv :: kvs =>
    match readVal cells fuel kv.2 with
    | Option.none => Option.none
    | some v => (readValD cells fuel kvs).map (fun vs => (kv.1, v) :: vs)
termination_by fuel kvs => (fuel, kvs.length + 1)

end

mutual

/-- copy.deepcopy at the heap level: copy the object graph rooted at
address a into fresh cells, returning the extended heap and the address
of the copy; fuel bounds the depth. -/
def deepcopyA : Nat → Heap → Nat → Option (Heap × Nat)
  | 0, _, _ => Option.none
  | fuel + 1, h, a =>
    match h.lookupCell a with
    | Option.none => Option.none
    | some .vnone => some (h.alloc .vnone)
    | some (.vbool b) => some (h.alloc (.vbool b))
    | some (.vint n) => some (h.alloc (.vint n))
    | some (.vstr s) => some (h.alloc (.vstr s))
    | some (.vlist es) =>
      match deepcopyL fuel h es with
      | Option.none => Option.none
      | some hr => some (hr.1.alloc (.vlist hr.2))
    | some (.vdict kvs) =>
      match deepcopyD fuel h kvs with
      | Option.none => Option.none
      | some hr => some (hr.1.alloc (.vdict hr.2))
termination_by fuel h a => (fuel, 0)

/-- Deep-copy each address of a list in order, threading the heap. -/
def deepcopyL : Nat → Heap → List Nat → Option (Heap × List Nat)
  | _, h, [] => some (h, [])
  | fuel, h, a :: as =>
    match deepcopyA fuel h a with
    | Option.none => Option.none
    | some hr =>
      match deepcopyL fuel hr.1 as with
      | Option.none => Option.none
      | some hrs => some (hrs.1, hr.2 :: hrs.2)
termination_by fuel h as => (fuel, as.length + 1)

/-- Deep-copy each dict entry in order, threading the heap. -/
def deepcopyD : Nat → Heap → List (String × Nat) →
    Option (Heap × List (String × Nat))
  | _, h, [] => some (h, [])
  | fuel, h, kv :: kvs =>
    match deepcopyA fuel h kv.2 with
    | Option.none => Option.none
    | some hr =>
      match deepcopyD fuel hr.1 kvs with
      | Option.none => Option.none
      | some hrs => some (hrs.1, (kv.1, hr.2) :: hrs.2)
termination_by fuel h kvs => (fuel, kvs.length + 1)

end

/-- OBJECT_STORE at the heap level: keys map to object references. -/
abbrev HeapStore := List (String × Nat)

/-- InMemoryKVS.__getitem__ at the heap level:
`copy.deepcopy(OBJECT_STORE.get(key, None))` for a present key — look up
the stored reference and deep-copy the referenced object graph.  The
absent case returns the shared immutable None object and is covered by
the value-level InMemoryKVS.get. -/
def InMemoryKVS.getHeap (_self : InMemoryKVS) (h : Heap) (st : HeapStore)
    (key : String) : Option (Heap × Nat) :=
  match st.lookup key with
  | some a => deepcopyA h.next h a
  | Option.none => Option.none

/-- Does pat occur at the start of a character list. -/
def chStarts : List Char → List Char → Bool
  | [], _ => true
  | _ :: _, [] => false
  | a :: as, b :: bs => a == b && chStarts as bs

/-- Does pat occur as a contiguous run inside a character list. -/
def chHasSub (pat : List Char) : List Char → Bool
  | [] => chStarts pat []
  | b :: bs => chStarts pat (b :: bs) || chHasSub pat bs

/-- Does the string s contain pat as a substring. -/
def strHasSub (s pat : String) : Bool :=
  chHasSub pat.toList s.toList

/-- A configuration with no kvs section at all. -/
def settingsNoKvs : PyValue := .dict []

/-- A configuration with kvs.type set to the unrecognized value bogus. -/
def settingsBogus : PyValue := .dict [("kvs", .dict [("type", .str "bogus")])]

/-- A configuration selecting the in-memory backend. -/
def settingsStub : PyValue := .dict [("kvs", .dict [("type", .str "stub")])]

/-- A configuration whose kvs section is present but has no type field. -/
def settingsNoType : PyValue := .dict [("kvs", .dict [])]

/-- A configuration selecting the ephemeral Redis backend without the
expiry field it will need at construction time. -/
def settingsEphemeralNoExpiry : PyValue :=
  .dict [("kvs", .dict [("type", .str "redis_ephemeral")])]

/-- h1 extends h: allocation only moved forward, every cell is an old
cell or sits at a fresh address, lookups below the old allocation
boundary are unchanged, and well-formedness is preserved. -/
def HeapExt (h h1 : Heap) : Prop :=
  h.next ≤ h1.next
  ∧ (∀ c ∈ h1.cells, c ∈ h.cells ∨ h.next ≤ c.1)
  ∧ (∀ b, b < h.next → h1.cells.lookup b = h.cells.lookup b)
  ∧ (h.wf → h1.wf)

/-- Unfolding dictContains over a cons. -/
theorem dictContains_cons {V : Type} (a : String) (b : V) (t : PyDict V) (k : String) :
    dictContains ((a, b) :: t) k = (a == k || dictContains t k) := by
  simp [dictContains]

/-- String equality tests are symmetric in their truth value. -/
theorem beq_comm_false {a k : String} (h : (a == k) = false) : (k == a) = false := by
  rw [beq_eq_false_iff_ne] at h ⊢
  exact Ne.symm h

/-- Overwriting a present key in place makes lookup find the new value. -/
theorem lookup_update_self {V : Type} (d : PyDict V) (k : String) (v : V)
    (hc : dictContains d k = true) :
    (d.map (fun kv => if kv.1 == k then (k, v) else kv)).lookup k = some v := by
  induction d with
  | nil => simp [dictContains] at hc
  | cons kv t ih =>
    obtain ⟨a, b⟩ := kv
    by_cases hk : a = k
    · simp [hk, List.lookup_cons]
    · have hb : (a == k) = false := beq_false_of_ne hk
      have ht : dictContains t k = true := by
        rw [dictContains_cons, hb] at hc
        simpa using hc
      simp only [List.map_cons, hb, Bool.false_eq_true, if_false, List.lookup_cons,
        beq_comm_false hb]
      exact ih ht

/-- Appending a fresh key makes lookup find it. -/
theorem lookup_append_self {V : Type} (d : PyDict V) (k : String) (v : V)
    (hc : dictContains d k = false) :
    (d ++ [(k, v)]).lookup k = some v := by
  induction d with
  | nil => simp [List.lookup_cons]
  | cons kv t ih =>
    obtain ⟨a, b⟩ := kv
    rw [dictContains_cons] at hc
    have hb : (a == k) = false := by
      cases h1 : (a == k) with
      | false => rfl
      | true => rw [h1] at hc; simp at hc
    have ht : dictContains t k = false := by
      rw [hb] at hc
      simpa using hc
    simp only [List.cons_append, List.lookup_cons, beq_comm_false hb]
    exact ih ht

/-- Looking up a key right after writing it finds the written value. -/
theorem dictGet_dictSet_self {V : Type} (d : PyDict V) (k : String) (v : V) :
    dictGet (dictSet d k v) k = some v := by
  by_cases hc : dictContains d k = true
  · rw [dictGet, dictSet, if_pos hc]
    exact lookup_update_self d k v hc
  · rw [Bool.not_eq_true] at hc
    rw [dictGet, dictSet, if_neg (by rw [hc]; exact Bool.false_ne_true)]
    exact lookup_append_self d k v hc

/-- dictContains decides membership among the keys. -/
theorem dictContains_iff {V : Type} (d : PyDict V) (k : String) :
    dictContains d k = true ↔ k ∈ d.map Prod.fst := by
  simp only [dictContains, List.any_eq_true, List.mem_map, beq_iff_eq]

/-- Writing a fresh key appends it. -/
theorem dictSet_fresh {V : Type} (d : PyDict V) (k : String) (v : V)
    (h : k ∉ d.map Prod.fst) : dictSet d k v = d ++ [(k, v)] := by
  have hc : dictContains d k = false := by
    cases h1 : dictContains d k with
    | false => rfl
    | true => exact absurd ((dictContains_iff d k).mp h1) h
  rw [dictSet, if_neg (by rw [hc]; exact Bool.false_ne_true)]

/-- With no duplicate keys, lookup finds any present entry. -/
theorem lookup_of_mem_nodup {V : Type} (d : PyDict V) (k : String) (v : V)
    (hnd : (d.map Prod.fst).Nodup) (hm : (k, v) ∈ d) :
    d.lookup k = some v := by
  induction d with
  | nil => simp at hm
  | cons kv t ih =>
    obtain ⟨a, b⟩ := kv
    rw [List.map_cons, List.nodup_cons] at hnd
    rcases List.mem_cons.mp hm with h | h
    · injection h with h1 h2
      subst h1
      subst h2
      simp [List.lookup_cons]
    · have hk : (k == a) = false := by
        apply beq_false_of_ne
        intro he
        exact hnd.1 (he ▸ List.mem_map.mpr ⟨(k, v), h, rfl⟩)
      simp only [List.lookup_cons, hk]
      exact ih hnd.2 h

/-- Structural induction for PyValue through its nested lists. -/
theorem pyValueIndOn (P : PyValue → Prop)
    (hnone : P .none) (hbool : ∀ b, P (.bool b)) (hint : ∀ n, P (.int n))
    (hstr : ∀ s, P (.str s)) (hpy : ∀ d, P (.pyobject d))
    (hlist : ∀ xs, (∀ x ∈ xs, P x) → P (.list xs))
    (hdict : ∀ kvs, (∀ kv ∈ kvs, P kv.2) → P (.dict kvs)) :
    ∀ v, P v := by
  have key : ∀ n v, sizeOf v ≤ n → P v := by
    intro n
    induction n with
    | zero =>
      intro v hv
      cases v <;> simp at hv
    | succ n ih =>
      intro v hv
      cases v with
      | none => exact hnone
      | bool b => exact hbool b
      | int m => exact hint m
      | str s => exact hstr s
      | pyobject d => exact hpy d
      | list xs =>
        refine hlist xs (fun x hx => ih x ?_)
        have h1 := List.sizeOf_lt_of_mem hx
        simp at hv
        omega
      | dict kvs =>
        refine hdict kvs (fun kv hkv => ih kv.2 ?_)
        have h1 := List.sizeOf_lt_of_mem hkv
        have h2 : sizeOf kv.2 < sizeOf kv := by
          obtain ⟨a, b⟩ := kv
          simp
        simp at hv
        omega
  intro v
  exact key (sizeOf v) v le_rfl

/-- Structural induction for Json through its nested lists. -/
theorem jsonIndOn (P : Json → Prop)
    (hnull : P .null) (hbool : ∀ b, P (.bool b)) (hint : ∀ n, P (.int n))
    (hstr : ∀ s, P (.str s))
    (harr : ∀ js, (∀ j ∈ js, P j) → P (.arr js))
    (hobj : ∀ kjs, (∀ kj ∈ kjs, P kj.2) → P (.obj kjs)) :
    ∀ j, P j := by
  have key : ∀ n j, sizeOf j ≤ n → P j := by
    intro n
    induction n with
    | zero =>
      intro j hj
      cases j <;> simp at hj
    | succ n ih =>
      intro j hj
      cases j with
      | null => exact hnull
      | bool b => exact hbool b
      | int m => exact hint m
      | str s => exact hstr s
      | arr js =>
        refine harr js (fun x hx => ih x ?_)
        have h1 := List.sizeOf_lt_of_mem hx
        simp at hj
        omega
      | obj kjs =>
        refine hobj kjs (fun kj hkj => ih kj.2 ?_)
        have h1 := List.sizeOf_lt_of_mem hkj
        have h2 : sizeOf kj.2 < sizeOf kj := by
          obtain ⟨a, b⟩ := kj
          simp
        simp at hj
        omega
  intro j
  exact key (sizeOf j) j le_rfl

/-- copy.deepcopy of a list is the identity when it is on the members. -/
theorem copy_deepcopyL_id (xs : List PyValue)
    (ih : ∀ x ∈ xs, copy_deepcopy x = x) : copy_deepcopyL xs = xs := by
  induction xs with
  | nil => simp [copy_deepcopyL]
  | cons x t iht =>
    rw [copy_deepcopyL, ih x (List.mem_cons_self x t),
      iht (fun y hy => ih y (List.mem_cons_of_mem x hy))]

/-- copy.deepcopy of a dict is the identity when it is on the values. -/
theorem copy_deepcopyD_id (kvs : List (String × PyValue))
    (ih : ∀ kv ∈ kvs, copy_deepcopy kv.2 = kv.2) : copy_deepcopyD kvs = kvs := by
  induction kvs with
  | nil => simp [copy_deepcopyD]
  | cons kv t iht =>
    rw [copy_deepcopyD, ih kv (List.mem_cons_self kv t),
      iht (fun y hy => ih y (List.mem_cons_of_mem kv hy))]

/-- copy.deepcopy returns a value deep-equal to its argument. -/
theorem copy_deepcopy_id : ∀ v, copy_deepcopy v = v := by
  apply pyValueIndOn
  · rfl
  · intro b; rfl
  · intro n; rfl
  · intro s; rfl
  · intro d; rfl
  · intro xs ih
    rw [copy_deepcopy, copy_deepcopyL_id xs ih]
  · intro kvs ih
    rw [copy_deepcopy, copy_deepcopyD_id kvs ih]

/-- List case of the dumps-then-loads round trip. -/
theorem pyToJsonL_roundtrip (xs : List PyValue) :
    ∀ js, pyToJsonL xs = some js →
    (∀ x ∈ xs, ∀ j, pyToJson x = some j → jsonToPy j = x) →
    jsonToPyL js = xs := by
  induction xs with
  | nil =>
    intro js hjs _
    rw [pyToJsonL] at hjs
    cases hjs
    rfl
  | cons x t ih =>
    intro js hjs hmem
    rw [pyToJsonL] at hjs
    cases hx : pyToJson x with
    | none => rw [hx] at hjs; cases hjs
    | some j =>
      rw [hx] at hjs
      cases hts : pyToJsonL t with
      | none => rw [hts] at hjs; cases hjs
      | some ts =>
        rw [hts] at hjs
        simp only [Option.map_some', Option.some.injEq] at hjs
        subst hjs
        rw [jsonToPyL, hmem x (List.mem_cons_self x t) j hx,
          ih ts hts (fun y hy => hmem y (List.mem_cons_of_mem x hy))]

/-- Dict case of the dumps-then-loads round trip. -/
theorem pyToJsonD_roundtrip (kvs : List (String × PyValue)) :
    ∀ kjs, pyToJsonD kvs = some kjs →
    (∀ kv ∈ kvs, ∀ j, pyToJson kv.2 = some j → jsonToPy j = kv.2) →
    jsonToPyD kjs = kvs := by
  induction kvs with
  | nil =>
    intro kjs hjs _
    rw [pyToJsonD] at hjs
    cases hjs
    rfl
  | cons kv t ih =>
    intro kjs hjs hmem
    rw [pyToJsonD] at hjs
    cases hx : pyToJson kv.2 with
    | none => rw [hx] at hjs; cases hjs
    | some j =>
      rw [hx] at hjs
      cases hts : pyToJsonD t with
      | none => rw [hts] at hjs; cases hjs
      | some ts =>
        rw [hts] at hjs
        simp only [Option.map_some', Option.some.injEq] at hjs
        subst hjs
        rw [jsonToPyD, hmem kv (List.mem_cons_self kv t) j hx,
          ih ts hts (fun y hy => hmem y (List.mem_cons_of_mem kv hy))]

/-- json.loads inverts json.dumps: a value accepted by dumps is
reproduced deep-equal by loads. -/
theorem pyToJson_roundtrip :
    ∀ v j, pyToJson v = some j → jsonToPy j = v := by
  have key : ∀ v, ∀ j, pyToJson v = some j → jsonToPy j = v := by
    apply pyValueIndOn (P := fun v => ∀ j, pyToJson v = some j → jsonToPy j = v)
    · intro j hj
      rw [pyToJson] at hj
      cases hj
      rfl
    · intro b j hj
      rw [pyToJson] at hj
      cases hj
      rfl
    · intro n j hj
      rw [pyToJson] at hj
      cases hj
      rfl
    · intro s j hj
      rw [pyToJson] at hj
      cases hj
      rfl
    · intro d j hj
      rw [pyToJson] at hj
      cases hj
    · intro xs ih j hj
      rw [pyToJson] at hj
      cases hxs : pyToJsonL xs with
      | none => rw [hxs] at hj; cases hj
      | some js =>
        rw [hxs] at hj
        simp only [Option.map_some', Option.some.injEq] at hj
        subst hj
        rw [jsonToPy, pyToJsonL_roundtrip xs js hxs ih]
    · intro kvs ih j hj
      rw [pyToJson] at hj
      cases hkvs : pyToJsonD kvs with
      | none => rw [hkvs] at hj; cases hj
      | some kjs =>
        rw [hkvs] at hj
        simp only [Option.map_some', Option.some.injEq] at hj
        subst hj
        rw [jsonToPy, pyToJsonD_roundtrip kvs kjs hkvs ih]
  exact key

/-- List case of the loads-then-dumps round trip. -/
theorem jsonToPyL_roundtrip (js : List Json)
    (ih : ∀ j ∈ js, pyToJson (jsonToPy j) = some j) :
    pyToJsonL (jsonToPyL js) = some js := by
  induction js with
  | nil => rfl
  | cons j t iht =>
    rw [jsonToPyL, pyToJsonL, ih j (List.mem_cons_self j t),
      iht (fun y hy => ih y (List.mem_cons_of_mem j hy))]
    rfl

/-- Dict case of the loads-then-dumps round trip. -/
theorem jsonToPyD_roundtrip (kjs : List (String × Json))
    (ih : ∀ kj ∈ kjs, pyToJson (jsonToPy kj.2) = some kj.2) :
    pyToJsonD (jsonToPyD kjs) = some kjs := by
  induction kjs with
  | nil => rfl
  | cons kj t iht =>
    rw [jsonToPyD, pyToJsonD]
    simp only
    rw [ih kj (List.mem_cons_self kj t),
      iht (fun y hy => ih y (List.mem_cons_of_mem kj hy))]
    rfl

/-- json.dumps inverts json.loads: every value read back from the store
serializes to exactly the stored document. -/
theorem jsonToPy_roundtrip : ∀ j, pyToJson (jsonToPy j) = some j := by
  apply jsonIndOn
  · rfl
  · intro b; rfl
  · intro n; rfl
  · intro s; rfl
  · intro js ih
    rw [jsonToPy, pyToJson, jsonToPyL_roundtrip js ih]
    rfl
  · intro kjs ih
    rw [jsonToPy, pyToJson, jsonToPyD_roundtrip kjs ih]
    rfl

/-- Claim C1: for every string key and JSON-serializable value, set
followed by get returns a value deep-equal to the one written, on both
the in-memory backend and the Redis backend (which serializes to JSON on
write and parses on read). -/
theorem C1_set_then_get_roundtrip (selfM : InMemoryKVS) (selfR : _RedisKVS)
    (st : Store) (rst : RedisStore) (k : String) (v : PyValue) (j : Json)
    (hser : pyToJson v = some j) :
    InMemoryKVS.set selfM st (.str k) v = (dictSet st k v, Option.none)
    ∧ InMemoryKVS.get selfM (dictSet st k v) k = v
    ∧ _RedisKVS.set selfR rst (.str k) v = (dictSet rst k j, Option.none)
    ∧ _RedisKVS.get selfR (dictSet rst k j) k = v := by
  refine ⟨?_, ?_, ?_, ?_⟩
  · simp [InMemoryKVS.set, hser]
  · simp [InMemoryKVS.get, dictGet_dictSet_self, copy_deepcopy_id]
  · simp [_RedisKVS.set, hser]
  · simp [_RedisKVS.get, dictGet_dictSet_self]
    exact pyToJson_roundtrip v j hser

/-- Witness for C1 at key hi and value 3 on both backends. -/
theorem C1_set_then_get_roundtrip_witness :
    InMemoryKVS.set ⟨0⟩ [] (.str "hi") (.int 3) = (dictSet [] "hi" (.int 3), Option.none)
    ∧ InMemoryKVS.get ⟨0⟩ (dictSet [] "hi" (.int 3)) "hi" = .int 3
    ∧ _RedisKVS.set ⟨.none⟩ [] (.str "hi") (.int 3) = (dictSet [] "hi" (.int 3), Option.none)
    ∧ _RedisKVS.get ⟨.none⟩ (dictSet [] "hi" (.int 3)) "hi" = .int 3 := by
  have hser : pyToJson (.int 3) = some (.int 3) := by rw [pyToJson]
  have h := C1_set_then_get_roundtrip ⟨0⟩ ⟨.none⟩ [] [] "hi" (.int 3) (.int 3) hser
  exact h

/-- Claim C2 counterexample: the claim states that the key is validated
as a string first and that a non-string key raises a type error.  In the
code json.dumps(value) runs before the key assertion, so with a
non-string key and a non-serializable value the raised error is the
serialization TypeError, and with a non-string key and a serializable
value the raised error is an AssertionError, not a TypeError. -/
theorem C2_validation_order_counterexample :
    (InMemoryKVS.set ⟨0⟩ [] (.int 5) (.pyobject "function")).2
        = some (PyError.typeError jsonDumpsMsg)
    ∧ (InMemoryKVS.set ⟨0⟩ [] (.int 5) (.str "ok")).2
        = some (PyError.assertionError "KVS keys must be strings")
    ∧ (∀ m, PyError.assertionError "KVS keys must be strings" ≠ PyError.typeError m)
    ∧ (∀ m, PyError.typeError jsonDumpsMsg ≠ PyError.keyError m) := by
  refine ⟨?_, ?_, ?_, ?_⟩
  · simp [InMemoryKVS.set, pyToJson, jsonDumpsError]
  · simp [InMemoryKVS.set, pyToJson, kvsKeyError]
  · exact fun m h => PyError.noConfusion h
  · exact fun m h => PyError.noConfusion h

/-- Claim C2 as amended: set validates the value first — a value that is
not JSON-serializable raises the json.dumps TypeError (even if the key is
also invalid); with a serializable value, a non-string key raises an
AssertionError.  In either failure case the store is left completely
unchanged, on both backends. -/
theorem C2_set_validation_amended (selfM : InMemoryKVS) (selfR : _RedisKVS)
    (st : Store) (rst : RedisStore) (key value : PyValue) :
    (pyToJson value = Option.none →
      InMemoryKVS.set selfM st key value = (st, some jsonDumpsError)
      ∧ _RedisKVS.set selfR rst key value = (rst, some jsonDumpsError))
    ∧ (∀ j, pyToJson value = some j → (∀ s, key ≠ .str s) →
      InMemoryKVS.set selfM st key value = (st, some kvsKeyError)
      ∧ _RedisKVS.set selfR rst key value = (rst, some kvsKeyError)) := by
  constructor
  · intro h
    exact ⟨by simp [InMemoryKVS.set, h], by simp [_RedisKVS.set, h]⟩
  · intro j hj hk
    cases key
    case str s => exact absurd rfl (hk s)
    all_goals
      exact ⟨by simp [InMemoryKVS.set, hj], by simp [_RedisKVS.set, hj]⟩

/-- Witness for the amended C2: a set with a non-serializable value and a
set with a non-string key each fail and leave the store unchanged. -/
theorem C2_set_validation_amended_witness :
    (InMemoryKVS.set ⟨0⟩ [] (.str "k") (.pyobject "function")
        = ([], some jsonDumpsError)
      ∧ _RedisKVS.set ⟨.none⟩ [] (.str "k") (.pyobject "function")
        = ([], some jsonDumpsError))
    ∧ (InMemoryKVS.set ⟨0⟩ [] (.int 5) (.int 1) = ([], some kvsKeyError)
      ∧ _RedisKVS.set ⟨.none⟩ [] (.int 5) (.int 1) = ([], some kvsKeyError)) := by
  constructor
  · exact (C2_set_validation_amended ⟨0⟩ ⟨.none⟩ [] [] (.str "k")
      (.pyobject "function")).1 (by rw [pyToJson])
  · exact (C2_set_validation_amended ⟨0⟩ ⟨.none⟩ [] [] (.int 5) (.int 1)).2
      (.int 1) (by rw [pyToJson]) (fun s h => PyValue.noConfusion h)

/-- Claim C3: with no kvs section the startup check fails with a
StartupCheck whose message tells the operator to set kvs.type; with
kvs.type bogus it fails with a StartupCheck listing stub,
redis_ephemeral and redis; with kvs.type stub it returns True and binds
the module global KVS to the in-memory backend class. -/
theorem C3_startup_check_cases :
    (kvs_startup_check settingsNoKvs Option.none
        = (Except.error (.startupCheck noKvsMsg), Option.none)
      ∧ strHasSub noKvsMsg "kvs.type" = true)
    ∧ (kvs_startup_check settingsBogus Option.none
        = (Except.error (.startupCheck (unknownKvsMsg (.str "bogus"))), Option.none)
      ∧ strHasSub (unknownKvsMsg (.str "bogus")) "stub" = true
      ∧ strHasSub (unknownKvsMsg (.str "bogus")) "redis_ephemeral" = true
      ∧ strHasSub (unknownKvsMsg (.str "bogus")) "redis" = true
      ∧ KVS_MAP.map Prod.fst = ["stub", "redis_ephemeral", "redis"])
    ∧ kvs_startup_check settingsStub Option.none
        = (Except.ok true, some BackendClass.inMemoryKVS) := by
  refine ⟨⟨?_, ?_⟩, ⟨?_, ?_, ?_, ?_, ?_⟩, ?_⟩ <;> rfl

/-- Claim C4, refuted by the code: on a configuration whose kvs section
exists but has no type field, the except-KeyError handler itself
re-evaluates settings[kvs][type], and the resulting raw KeyError escapes
instead of the designated StartupCheck configuration error. -/
theorem C4_no_type_field_raw_keyerror :
    kvs_startup_check settingsNoType Option.none
        = (Except.error (PyError.keyError "type"), Option.none)
    ∧ ∀ msg, PyError.keyError "type" ≠ PyError.startupCheck msg :=
  ⟨rfl, fun _ h => PyError.noConfusion h⟩

/-- Claim C5: all InMemoryKVS instances share the single process-wide
OBJECT_STORE: the documented two-instance scenario reads back the other
instance's write, and every operation (get, set, keys, clear) is
independent of which instance performs it; clear through one instance
empties the store seen by every other instance. -/
theorem C5_shared_object_store (mk1 mk2 : InMemoryKVS) (st : Store)
    (key value : PyValue) (k : String) :
    InMemoryKVS.get mk1
      ((InMemoryKVS.set mk2
        ((InMemoryKVS.set mk1 st (.str "hi") (.int 5)).1) (.str "hi") (.int 7)).1)
      "hi" = .int 7
    ∧ InMemoryKVS.set mk1 st key value = InMemoryKVS.set mk2 st key value
    ∧ InMemoryKVS.get mk1 st k = InMemoryKVS.get mk2 st k
    ∧ InMemoryKVS.keys mk1 st = InMemoryKVS.keys mk2 st
    ∧ InMemoryKVS.clear mk1 st = InMemoryKVS.clear mk2 st
    ∧ InMemoryKVS.get mk1 (InMemoryKVS.clear mk2 st) k = .none := by
  refine ⟨?_, rfl, rfl, rfl, rfl, ?_⟩
  · simp [InMemoryKVS.set, pyToJson, InMemoryKVS.get, dictGet_dictSet_self,
      copy_deepcopy]
  · simp [InMemoryKVS.get, InMemoryKVS.clear, dictGet, List.lookup, copy_deepcopy]

/-- Claim C6: reading a key that was never written returns None rather
than raising, on both backends. -/
theorem C6_missing_key_returns_none (selfM : InMemoryKVS) (selfR : _RedisKVS)
    (st : Store) (rst : RedisStore) (k : String)
    (h1 : dictGet st k = Option.none) (h2 : dictGet rst k = Option.none) :
    InMemoryKVS.get selfM st k = .none ∧ _RedisKVS.get selfR rst k = .none := by
  constructor
  · simp [InMemoryKVS.get, h1, copy_deepcopy]
  · simp [_RedisKVS.get, h2]

/-- Witness for C6 on empty stores. -/
theorem C6_missing_key_returns_none_witness :
    InMemoryKVS.get ⟨0⟩ [] "never" = .none
    ∧ _RedisKVS.get ⟨.none⟩ [] "never" = .none :=
  C6_missing_key_returns_none ⟨0⟩ ⟨.none⟩ [] [] "never" rfl rfl

/-- Claim C10: the startup check succeeds for kvs.type redis_ephemeral
even when kvs.expiry is missing, binding the ephemeral backend class; the
missing expiry only surfaces as a KeyError when an EphemeralRedisKVS
instance is constructed. -/
theorem C10_expiry_not_validated_at_startup :
    kvs_startup_check settingsEphemeralNoExpiry Option.none
        = (Except.ok true, some BackendClass.ephemeralRedisKVS)
    ∧ EphemeralRedisKVS_init settingsEphemeralNoExpiry
        = Except.error (PyError.keyError "expiry") :=
  ⟨rfl, rfl⟩

/-- A set that raises leaves the store exactly as it was. -/
theorem set_error_frame (self : InMemoryKVS) (st : Store) (key value : PyValue)
    (e : PyError) (h : (InMemoryKVS.set self st key value).2 = some e) :
    InMemoryKVS.set self st key value = (st, some e) := by
  cases hv : pyToJson value with
  | none => simp_all [InMemoryKVS.set]
  | some j => cases key <;> simp_all [InMemoryKVS.set]

/-- Loading fresh keys with serializable values appends them in order. -/
theorem load_fresh (self : InMemoryKVS) :
    ∀ (data : List (String × PyValue)) (acc : Store),
    (∀ kv ∈ data, (pyToJson kv.2).isSome) →
    (acc.map Prod.fst ++ data.map Prod.fst).Nodup →
    InMemoryKVS.load self acc data = (acc ++ data, Option.none) := by
  intro data
  induction data with
  | nil =>
    intro acc _ _
    simp [InMemoryKVS.load]
  | cons kv rest ih =>
    intro acc hser hnd
    obtain ⟨k, v⟩ := kv
    obtain ⟨j, hj⟩ : ∃ j, pyToJson v = some j := by
      have := hser (k, v) (List.mem_cons_self _ _)
      exact Option.isSome_iff_exists.mp this
    have hfresh : k ∉ acc.map Prod.fst := by
      rw [List.nodup_append] at hnd
      intro hin
      exact hnd.2.2 hin (by simp)
    rw [InMemoryKVS.load]
    simp only [InMemoryKVS.set, hj]
    rw [dictSet_fresh acc k v hfresh]
    rw [ih (acc ++ [(k, v)])
      (fun y hy => hser y (List.mem_cons_of_mem _ hy))
      (by simpa using hnd)]
    simp

/-- Folding dictSet over fresh keys appends the generated entries. -/
theorem foldl_dictSet_fresh {V : Type} (f : String → V) :
    ∀ (ks : List String) (acc : PyDict V),
    (acc.map Prod.fst ++ ks).Nodup →
    ks.foldl (fun d k => dictSet d k (f k)) acc
      = acc ++ ks.map (fun k => (k, f k)) := by
  intro ks
  induction ks with
  | nil =>
    intro acc _
    simp
  | cons k rest ih =>
    intro acc hnd
    have hfresh : k ∉ acc.map Prod.fst := by
      rw [List.nodup_append] at hnd
      intro hin
      exact hnd.2.2 hin (by simp)
    rw [List.foldl_cons, dictSet_fresh acc k (f k) hfresh,
      ih (acc ++ [(k, f k)]) (by simpa using hnd)]
    simp

/-- With no duplicate keys, in-memory dump reproduces the store. -/
theorem dump_eq_self (self : InMemoryKVS) (st : Store)
    (hnd : (st.map Prod.fst).Nodup) :
    InMemoryKVS.dump self st = st := by
  rw [InMemoryKVS.dump, InMemoryKVS.keys,
    foldl_dictSet_fresh (fun k => InMemoryKVS.get self st k) (st.map Prod.fst) []
      (by simpa using hnd)]
  simp only [List.nil_append, List.map_map]
  have hpt : ∀ kv ∈ st,
      ((fun k => (k, InMemoryKVS.get self st k)) ∘ Prod.fst) kv = id kv := by
    intro kv hkv
    have hl : st.lookup kv.1 = some kv.2 :=
      lookup_of_mem_nodup st kv.1 kv.2 hnd (by simpa using hkv)
    simp [Function.comp, InMemoryKVS.get, dictGet, hl, copy_deepcopy_id]
  rw [List.map_congr_left hpt, List.map_id]

/-- With no duplicate keys, Redis dump is the parsed view of the remote
store. -/
theorem redis_dump_eq (self : _RedisKVS) (rst : RedisStore)
    (hnd : (rst.map Prod.fst).Nodup) :
    _RedisKVS.dump self rst = rst.map (fun kv => (kv.1, jsonToPy kv.2)) := by
  rw [_RedisKVS.dump, _RedisKVS.keys,
    foldl_dictSet_fresh (fun k => _RedisKVS.get self rst k) (rst.map Prod.fst) []
      (by simpa using hnd)]
  simp only [List.nil_append, List.map_map]
  apply List.map_congr_left
  intro kv hkv
  have hl : rst.lookup kv.1 = some kv.2 :=
    lookup_of_mem_nodup rst kv.1 kv.2 hnd (by simpa using hkv)
  simp [Function.comp, _RedisKVS.get, dictGet, hl]

/-- Serializing the parsed view of a Redis store gives back the stored
documents, entry by entry. -/
theorem pyToJsonD_parsed_view (rst : RedisStore) :
    pyToJsonD (rst.map (fun kv => (kv.1, jsonToPy kv.2))) = some rst := by
  induction rst with
  | nil => rfl
  | cons kv t ih =>
    rw [List.map_cons, pyToJsonD]
    simp only
    rw [jsonToPy_roundtrip kv.2, ih]
    rfl

/-- Loading entries whose values serialize to given documents, all keys
fresh, appends the serialized entries to the Redis store in order. -/
theorem redis_load_fresh (self : _RedisKVS) :
    ∀ (data : List (String × PyValue)) (acc : RedisStore)
      (jdata : List (String × Json)),
    pyToJsonD data = some jdata →
    (acc.map Prod.fst ++ data.map Prod.fst).Nodup →
    _RedisKVS.load self acc data = (acc ++ jdata, Option.none) := by
  intro data
  induction data with
  | nil =>
    intro acc jdata hj _
    rw [pyToJsonD] at hj
    cases hj
    simp [_RedisKVS.load]
  | cons kv rest ih =>
    intro acc jdata hj hnd
    obtain ⟨k, v⟩ := kv
    rw [pyToJsonD] at hj
    cases hv : pyToJson v with
    | none => rw [hv] at hj; cases hj
    | some j =>
      rw [hv] at hj
      cases hrest : pyToJsonD rest with
      | none => rw [hrest] at hj; cases hj
      | some jrest =>
        rw [hrest] at hj
        simp only [Option.map_some', Option.some.injEq] at hj
        subst hj
        have hfresh : k ∉ acc.map Prod.fst := by
          rw [List.nodup_append] at hnd
          intro hin
          exact hnd.2.2 hin (by simp)
        rw [_RedisKVS.load]
        simp only [_RedisKVS.set, hv]
        rw [dictSet_fresh acc k j hfresh,
          ih (acc ++ [(k, j)]) jrest hrest (by simpa using hnd)]
        simp

/-- Claim C8: dumping a store and loading the dump into a fresh store of
the same backend kind reproduces an equivalent key/value mapping — for
the in-memory backend the loaded store is the original store, and for
the Redis backend the loaded remote state is the original remote state,
so every dumped key reads back deep-equal. -/
theorem C8_dump_then_load_roundtrip (selfM selfM2 : InMemoryKVS)
    (selfR selfR2 : _RedisKVS) (st : Store) (rst : RedisStore)
    (hnd : (st.map Prod.fst).Nodup)
    (hser : ∀ kv ∈ st, (pyToJson kv.2).isSome)
    (hndR : (rst.map Prod.fst).Nodup) :
    (InMemoryKVS.load selfM2 [] (InMemoryKVS.dump selfM st) = (st, Option.none)
      ∧ ∀ k, InMemoryKVS.get selfM2
          (InMemoryKVS.load selfM2 [] (InMemoryKVS.dump selfM st)).1 k
          = InMemoryKVS.get selfM st k)
    ∧ (_RedisKVS.load selfR2 [] (_RedisKVS.dump selfR rst) = (rst, Option.none)
      ∧ ∀ k, _RedisKVS.get selfR2
          (_RedisKVS.load selfR2 [] (_RedisKVS.dump selfR rst)).1 k
          = _RedisKVS.get selfR rst k) := by
  have hmem : InMemoryKVS.load selfM2 [] (InMemoryKVS.dump selfM st)
      = (st, Option.none) := by
    rw [dump_eq_self selfM st hnd]
    exact load_fresh selfM2 st [] hser (by simpa using hnd)
  have hred : _RedisKVS.load selfR2 [] (_RedisKVS.dump selfR rst)
      = (rst, Option.none) := by
    rw [redis_dump_eq selfR rst hndR]
    exact redis_load_fresh selfR2 (rst.map (fun kv => (kv.1, jsonToPy kv.2)))
      [] rst (pyToJsonD_parsed_view rst) (by simpa using hndR)
  refine ⟨⟨hmem, ?_⟩, ⟨hred, ?_⟩⟩
  · intro k
    rw [hmem]
    rfl
  · intro k
    rw [hred]
    rfl

/-- Witness for C8 on a one-entry store for each backend. -/
theorem C8_dump_then_load_roundtrip_witness :
    (InMemoryKVS.load ⟨1⟩ [] (InMemoryKVS.dump ⟨0⟩ [("hi", .int 3)])
        = ([("hi", .int 3)], Option.none))
    ∧ (_RedisKVS.load ⟨.none⟩ [] (_RedisKVS.dump ⟨.none⟩ [("hi", .int 3)])
        = ([("hi", .int 3)], Option.none)) := by
  have h := C8_dump_then_load_roundtrip ⟨0⟩ ⟨1⟩ ⟨.none⟩ ⟨.none⟩
    [("hi", .int 3)] [("hi", Json.int 3)]
    (by simp) (by intro kv hkv; simp at hkv; subst hkv; rw [pyToJson]; rfl)
    (by simp)
  exact ⟨h.1.1, h.2.1⟩

/-- load processes the parsed mapping strictly in order: loading a
concatenation loads the first part, and continues into the second part
only if no entry of the first part failed. -/
theorem load_append (self : InMemoryKVS) :
    ∀ (pre : List (String × PyValue)) (st : Store)
      (rest : List (String × PyValue)),
    InMemoryKVS.load self st (pre ++ rest)
      = match InMemoryKVS.load self st pre with
        | (st1, Option.none) => InMemoryKVS.load self st1 rest
        | (st1, some e) => (st1, some e) := by
  intro pre
  induction pre with
  | nil =>
    intro st rest
    simp [InMemoryKVS.load]
  | cons kv p ih =>
    intro st rest
    obtain ⟨k, v⟩ := kv
    simp only [List.cons_append, InMemoryKVS.load]
    cases hset : InMemoryKVS.set self st (.str k) v with
    | mk st1 r =>
      cases r with
      | none =>
        dsimp only
        exact ih st1 rest
      | some e =>
        dsimp only

/-- Claim C9: load performs one set per entry with no batching and no
rollback — when the entry after a successfully loaded first part fails,
the error propagates, the first part stays written, and the failing
entry and everything after it are not written. -/
theorem C9_load_stops_at_first_error (self : InMemoryKVS) (st st1 : Store)
    (pre post : List (String × PyValue)) (k : String) (v : PyValue)
    (e : PyError)
    (hpre : InMemoryKVS.load self st pre = (st1, Option.none))
    (hfail : (InMemoryKVS.set self st1 (.str k) v).2 = some e) :
    InMemoryKVS.load self st (pre ++ (k, v) :: post) = (st1, some e) := by
  rw [load_append self pre st ((k, v) :: post), hpre]
  dsimp only
  rw [InMemoryKVS.load, set_error_frame self st1 (.str k) v e hfail]

/-- Witness for C9: entry a loads, entry b fails serialization, entry c
is never written; the partial write of a remains. -/
theorem C9_load_stops_at_first_error_witness :
    InMemoryKVS.load ⟨0⟩ []
        ([("a", PyValue.int 1)]
          ++ ("b", PyValue.pyobject "function") :: [("c", PyValue.int 2)])
      = ([("a", PyValue.int 1)], some jsonDumpsError) :=
  C9_load_stops_at_first_error ⟨0⟩ [] [("a", .int 1)] [("a", .int 1)]
    [("c", .int 2)] "b" (.pyobject "function") jsonDumpsError
    (by simp [InMemoryKVS.load, InMemoryKVS.set, pyToJson, dictSet, dictContains])
    (by simp [InMemoryKVS.set, pyToJson])

/-- A successful cell lookup comes from a member entry. -/
theorem lookupCell_mem (cells : List (Nat × PyObj)) (a : Nat) (o : PyObj)
    (h : cells.lookup a = some o) : (a, o) ∈ cells := by
  induction cells with
  | nil => cases h
  | cons c t ih =>
    obtain ⟨b, o2⟩ := c
    cases hab : a == b with
    | true =>
      simp only [List.lookup_cons, hab] at h
      injection h with h2
      subst h2
      have hab2 : a = b := by simpa using hab
      subst hab2
      exact List.mem_cons_self _ _
    | false =>
      simp only [List.lookup_cons, hab] at h
      exact List.mem_cons_of_mem _ (ih h)

/-- Prepending a cell at a different address does not change a lookup. -/
theorem lookup_cons_ne_addr (t : List (Nat × PyObj)) (b : Nat) (o : PyObj)
    (a : Nat) (h : a ≠ b) : ((b, o) :: t).lookup a = t.lookup a := by
  simp only [List.lookup_cons, beq_false_of_ne h]

/-- Heap extension is reflexive. -/
theorem heapExt_refl (h : Heap) : HeapExt h h :=
  ⟨le_refl _, fun c hc => Or.inl hc, fun _ _ => rfl, fun w => w⟩

/-- Heap extension composes. -/
theorem HeapExt.trans {h h1 h2 : Heap} (e1 : HeapExt h h1) (e2 : HeapExt h1 h2) :
    HeapExt h h2 := by
  obtain ⟨n1, c1, l1, w1⟩ := e1
  obtain ⟨n2, c2, l2, w2⟩ := e2
  refine ⟨le_trans n1 n2, ?_, ?_, fun w => w2 (w1 w)⟩
  · intro c hc
    rcases c2 c hc with hin | hfresh
    · exact c1 c hin
    · exact Or.inr (le_trans n1 hfresh)
  · intro b hb
    rw [l2 b (lt_of_lt_of_le hb n1), l1 b hb]

/-- Allocating an object whose references stay below the allocation
point extends the heap and yields a fresh address. -/
theorem HeapExt.alloc {h h1 : Heap} (o : PyObj) (he : HeapExt h h1)
    (hch : ∀ b ∈ o.childAddrs, b < h1.next) :
    HeapExt h (h1.alloc o).1
    ∧ h.next ≤ (h1.alloc o).2 ∧ (h1.alloc o).2 < (h1.alloc o).1.next := by
  obtain ⟨n1, c1, l1, w1⟩ := he
  refine ⟨⟨?_, ?_, ?_, ?_⟩, ?_, ?_⟩
  · simp only [Heap.alloc]
    omega
  · intro c hc
    simp only [Heap.alloc, List.mem_cons] at hc
    rcases hc with rfl | hc
    · exact Or.inr (by simpa using n1)
    · exact c1 c hc
  · intro b hb
    simp only [Heap.alloc]
    rw [lookup_cons_ne_addr _ _ _ _ (by omega)]
    exact l1 b hb
  · intro hw
    have hw1 := w1 hw
    intro c hc
    simp only [Heap.alloc, List.mem_cons] at hc
    rcases hc with rfl | hc
    · exact ⟨by simp [Heap.alloc], by simpa [Heap.alloc] using hch⟩
    · have := hw1 c hc
      exact ⟨by simp only [Heap.alloc]; omega, this.2⟩
  · simpa [Heap.alloc] using n1
  · simp [Heap.alloc]

/-- Reading below an agreement boundary is insensitive to cells at or
above it: in a heap whose objects only refer downward, the value tree of
an address below N only consults cells below N. -/
theorem readVal_agree (cells cells2 : List (Nat × PyObj)) (N : Nat)
    (hwf : ∀ c ∈ cells, ∀ b ∈ c.2.childAddrs, b < c.1)
    (hag : ∀ b, b < N → cells2.lookup b = cells.lookup b) :
    ∀ f, (∀ a, a < N → readVal cells2 f a = readVal cells f a)
      ∧ (∀ es, (∀ e ∈ es, e < N) → readValL cells2 f es = readValL cells f es)
      ∧ (∀ kvs, (∀ kv ∈ kvs, kv.2 < N) →
          readValD cells2 f kvs = readValD cells f kvs) := by
  intro f
  induction f with
  | zero =>
    refine ⟨?_, ?_, ?_⟩
    · intro a _
      simp [readVal]
    · intro es _
      cases es with
      | nil => simp [readValL]
      | cons e t => simp [readValL, readVal]
    · intro kvs _
      cases kvs with
      | nil => simp [readValD]
      | cons kv t => simp [readValD, readVal]
  | succ f ih =>
    have hA : ∀ a, a < N → readVal cells2 (f + 1) a = readVal cells (f + 1) a := by
      intro a ha
      simp only [readVal]
      rw [hag a ha]
      cases hlook : cells.lookup a with
      | none => rfl
      | some o =>
        have hmem := lookupCell_mem cells a o hlook
        cases o with
        | vnone => rfl
        | vbool b => rfl
        | vint n => rfl
        | vstr s => rfl
        | vlist es =>
          have hes : ∀ e ∈ es, e < N := by
            intro e he
            have hlt := hwf (a, .vlist es) hmem e (by simpa [PyObj.childAddrs] using he)
            omega
          dsimp only
          rw [ih.2.1 es hes]
        | vdict kvs =>
          have hkvs : ∀ kv ∈ kvs, kv.2 < N := by
            intro kv hkv
            have hin : kv.2 ∈ (PyObj.vdict kvs).childAddrs := by
              simp only [PyObj.childAddrs]
              exact List.mem_map.mpr ⟨kv, hkv, rfl⟩
            have hlt := hwf (a, .vdict kvs) hmem kv.2 hin
            omega
          dsimp only
          rw [ih.2.2 kvs hkvs]
    refine ⟨hA, ?_, ?_⟩
    · intro es hes
      induction es with
      | nil => simp [readValL]
      | cons e t iht =>
        simp only [readValL]
        rw [hA e (hes e (List.mem_cons_self e t)),
          iht (fun x hx => hes x (List.mem_cons_of_mem e hx))]
    · intro kvs hkvs
      induction kvs with
      | nil => simp [readValD]
      | cons kv t iht =>
        simp only [readValD]
        rw [hA kv.2 (hkvs kv (List.mem_cons_self kv t)),
          iht (fun x hx => hkvs x (List.mem_cons_of_mem kv hx))]

/-- deepcopy only allocates: the result heap extends the input heap and
every returned address is fresh (at or above the old allocation
boundary and below the new one). -/
theorem deepcopy_spec : ∀ fuel,
    (∀ h a res, deepcopyA fuel h a = some res →
      HeapExt h res.1 ∧ h.next ≤ res.2 ∧ res.2 < res.1.next)
    ∧ (∀ es h res, deepcopyL fuel h es = some res →
      HeapExt h res.1 ∧ ∀ x ∈ res.2, h.next ≤ x ∧ x < res.1.next)
    ∧ (∀ kvs h res, deepcopyD fuel h kvs = some res →
      HeapExt h res.1 ∧ ∀ kv ∈ res.2, h.next ≤ kv.2 ∧ kv.2 < res.1.next) := by
  intro fuel
  induction fuel with
  | zero =>
    refine ⟨?_, ?_, ?_⟩
    · intro h a res hcopy
      simp [deepcopyA] at hcopy
    · intro es h res hcopy
      cases es with
      | nil =>
        simp only [deepcopyL] at hcopy
        injection hcopy with h1
        subst h1
        exact ⟨heapExt_refl h, by intro x hx; simp at hx⟩
      | cons e t => simp [deepcopyL, deepcopyA] at hcopy
    · intro kvs h res hcopy
      cases kvs with
      | nil =>
        simp only [deepcopyD] at hcopy
        injection hcopy with h1
        subst h1
        exact ⟨heapExt_refl h, by intro x hx; simp at hx⟩
      | cons kv t => simp [deepcopyD, deepcopyA] at hcopy
  | succ fuel ih =>
    have hA : ∀ h a res, deepcopyA (fuel + 1) h a = some res →
        HeapExt h res.1 ∧ h.next ≤ res.2 ∧ res.2 < res.1.next := by
      intro h a res hcopy
      simp only [deepcopyA] at hcopy
      cases hlook : h.lookupCell a with
      | none => rw [hlook] at hcopy; cases hcopy
      | some o =>
        rw [hlook] at hcopy
        cases o with
        | vnone =>
          dsimp only at hcopy
          injection hcopy with h1
          subst h1
          exact HeapExt.alloc _ (heapExt_refl h) (by simp [PyObj.childAddrs])
        | vbool b =>
          dsimp only at hcopy
          injection hcopy with h1
          subst h1
          exact HeapExt.alloc _ (heapExt_refl h) (by simp [PyObj.childAddrs])
        | vint n =>
          dsimp only at hcopy
          injection hcopy with h1
          subst h1
          exact HeapExt.alloc _ (heapExt_refl h) (by simp [PyObj.childAddrs])
        | vstr s =>
          dsimp only at hcopy
          injection hcopy with h1
          subst h1
          exact HeapExt.alloc _ (heapExt_refl h) (by simp [PyObj.childAddrs])
        | vlist es =>
          dsimp only at hcopy
          cases hcl : deepcopyL fuel h es with
          | none => rw [hcl] at hcopy; cases hcopy
          | some hr =>
            rw [hcl] at hcopy
            dsimp only at hcopy
            injection hcopy with h1
            subst h1
            obtain ⟨he1, hb1⟩ := ih.2.1 es h hr hcl
            refine HeapExt.alloc _ he1 ?_
            simp only [PyObj.childAddrs]
            intro b hb
            exact (hb1 b hb).2
        | vdict kvs =>
          dsimp only at hcopy
          cases hcd : deepcopyD fuel h kvs with
          | none => rw [hcd] at hcopy; cases hcopy
          | some hr =>
            rw [hcd] at hcopy
            dsimp only at hcopy
            injection hcopy with h1
            subst h1
            obtain ⟨he1, hb1⟩ := ih.2.2 kvs h hr hcd
            refine HeapExt.alloc _ he1 ?_
            simp only [PyObj.childAddrs]
            intro b hb
            obtain ⟨kv, hkv, rfl⟩ := List.mem_map.mp hb
            exact (hb1 kv hkv).2
    have hL : ∀ es h res, deepcopyL (fuel + 1) h es = some res →
        HeapExt h res.1 ∧ ∀ x ∈ res.2, h.next ≤ x ∧ x < res.1.next := by
      intro es
      induction es with
      | nil =>
        intro h res hcopy
        simp only [deepcopyL] at hcopy
        injection hcopy with h1
        subst h1
        exact ⟨heapExt_refl h, by intro x hx; simp at hx⟩
      | cons e t iht =>
        intro h res hcopy
        simp only [deepcopyL] at hcopy
        cases hce : deepcopyA (fuel + 1) h e with
        | none => rw [hce] at hcopy; cases hcopy
        | some hr =>
          rw [hce] at hcopy
          dsimp only at hcopy
          cases hct : deepcopyL (fuel + 1) hr.1 t with
          | none => rw [hct] at hcopy; cases hcopy
          | some hrs =>
            rw [hct] at hcopy
            dsimp only at hcopy
            injection hcopy with h1
            subst h1
            obtain ⟨heA, hbA1, hbA2⟩ := hA h e hr hce
            obtain ⟨heL, hbL⟩ := iht hr.1 hrs hct
            refine ⟨HeapExt.trans heA heL, ?_⟩
            intro x hx
            rcases List.mem_cons.mp hx with rfl | hx
            · exact ⟨hbA1, lt_of_lt_of_le hbA2 heL.1⟩
            · have hx2 := hbL x hx
              exact ⟨le_trans heA.1 hx2.1, hx2.2⟩
    have hD : ∀ kvs h res, deepcopyD (fuel + 1) h kvs = some res →
        HeapExt h res.1 ∧ ∀ kv ∈ res.2, h.next ≤ kv.2 ∧ kv.2 < res.1.next := by
      intro kvs
      induction kvs with
      | nil =>
        intro h res hcopy
        simp only [deepcopyD] at hcopy
        injection hcopy with h1
        subst h1
        exact ⟨heapExt_refl h, by intro x hx; simp at hx⟩
      | cons kv t iht =>
        intro h res hcopy
        simp only [deepcopyD] at hcopy
        cases hce : deepcopyA (fuel + 1) h kv.2 with
        | none => rw [hce] at hcopy; cases hcopy
        | some hr =>
          rw [hce] at hcopy
          dsimp only at hcopy
          cases hct : deepcopyD (fuel + 1) hr.1 t with
          | none => rw [hct] at hcopy; cases hcopy
          | some hrs =>
            rw [hct] at hcopy
            dsimp only at hcopy
            injection hcopy with h1
            subst h1
            obtain ⟨heA, hbA1, hbA2⟩ := hA h kv.2 hr hce
            obtain ⟨heL, hbL⟩ := iht hr.1 hrs hct
            refine ⟨HeapExt.trans heA heL, ?_⟩
            intro x hx
            rcases List.mem_cons.mp hx with rfl | hx
            · exact ⟨hbA1, lt_of_lt_of_le hbA2 heL.1⟩
            · have hx2 := hbL x hx
              exact ⟨le_trans heA.1 hx2.1, hx2.2⟩
    exact ⟨hA, hL, hD⟩

/-- The children-only-downward part of heap well-formedness. -/
theorem wf_children {h : Heap} (hw : h.wf) :
    ∀ c ∈ h.cells, ∀ b ∈ c.2.childAddrs, b < c.1 :=
  fun c hc => (hw c hc).2

/-- The freshly allocated cell is found at the returned address. -/
theorem lookup_alloc_self (h1 : Heap) (o : PyObj) :
    ((h1.alloc o).1).cells.lookup (h1.alloc o).2 = some o := by
  simp [Heap.alloc, List.lookup_cons]

/-- The copy made by deepcopy reads back the same value tree as the
original, at every read depth. -/
theorem deepcopy_reads : ∀ fuel,
    (∀ h a res, h.wf → deepcopyA fuel h a = some res →
      ∀ f, readVal res.1.cells f res.2 = readVal h.cells f a)
    ∧ (∀ es h res, h.wf → (∀ e ∈ es, e < h.next) →
      deepcopyL fuel h es = some res →
      ∀ f, readValL res.1.cells f res.2 = readValL h.cells f es)
    ∧ (∀ kvs h res, h.wf → (∀ kv ∈ kvs, kv.2 < h.next) →
      deepcopyD fuel h kvs = some res →
      ∀ f, readValD res.1.cells f res.2 = readValD h.cells f kvs) := by
  intro fuel
  induction fuel with
  | zero =>
    refine ⟨?_, ?_, ?_⟩
    · intro h a res _ hcopy
      simp [deepcopyA] at hcopy
    · intro es h res _ _ hcopy
      cases es with
      | nil =>
        simp only [deepcopyL] at hcopy
        injection hcopy with h1
        subst h1
        intro f
        rfl
      | cons e t => simp [deepcopyL, deepcopyA] at hcopy
    · intro kvs h res _ _ hcopy
      cases kvs with
      | nil =>
        simp only [deepcopyD] at hcopy
        injection hcopy with h1
        subst h1
        intro f
        rfl
      | cons kv t => simp [deepcopyD, deepcopyA] at hcopy
  | succ fuel ih =>
    have hA : ∀ h a res, h.wf → deepcopyA (fuel + 1) h a = some res →
        ∀ f, readVal res.1.cells f res.2 = readVal h.cells f a := by
      intro h a res hwf hcopy
      simp only [deepcopyA] at hcopy
      cases hlook : h.lookupCell a with
      | none => rw [hlook] at hcopy; cases hcopy
      | some o =>
        rw [hlook] at hcopy
        have hmem := lookupCell_mem h.cells a o
          (by simpa [Heap.lookupCell] using hlook)
        have ha : a < h.next := (hwf (a, o) hmem).1
        cases o with
        | vnone =>
          dsimp only at hcopy
          injection hcopy with h1
          subst h1
          intro f
          cases f with
          | zero => simp [readVal]
          | succ f =>
            simp only [readVal, lookup_alloc_self]
            rw [show h.cells.lookup a = some PyObj.vnone from
              by simpa [Heap.lookupCell] using hlook]
        | vbool b =>
          dsimp only at hcopy
          injection hcopy with h1
          subst h1
          intro f
          cases f with
          | zero => simp [readVal]
          | succ f =>
            simp only [readVal, lookup_alloc_self]
            rw [show h.cells.lookup a = some (PyObj.vbool b) from
              by simpa [Heap.lookupCell] using hlook]
        | vint n =>
          dsimp only at hcopy
          injection hcopy with h1
          subst h1
          intro f
          cases f with
          | zero => simp [readVal]
          | succ f =>
            simp only [readVal, lookup_alloc_self]
            rw [show h.cells.lookup a = some (PyObj.vint n) from
              by simpa [Heap.lookupCell] using hlook]
        | vstr s =>
          dsimp only at hcopy
          injection hcopy with h1
          subst h1
          intro f
          cases f with
          | zero => simp [readVal]
          | succ f =>
            simp only [readVal, lookup_alloc_self]
            rw [show h.cells.lookup a = some (PyObj.vstr s) from
              by simpa [Heap.lookupCell] using hlook]
        | vlist es =>
          dsimp only at hcopy
          cases hcl : deepcopyL fuel h es with
          | none => rw [hcl] at hcopy; cases hcopy
          | some hr =>
            rw [hcl] at hcopy
            dsimp only at hcopy
            injection hcopy with h1
            subst h1
            have hes : ∀ e ∈ es, e < h.next := by
              intro e he
              have hlt := (hwf (a, .vlist es) hmem).2 e
                (by simpa [PyObj.childAddrs] using he)
              omega
            obtain ⟨heL, hbL⟩ := (deepcopy_spec fuel).2.1 es h hr hcl
            have hwf1 : hr.1.wf := heL.2.2.2 hwf
            intro f
            cases f with
            | zero => simp [readVal]
            | succ f =>
              simp only [readVal, lookup_alloc_self]
              rw [show h.cells.lookup a = some (PyObj.vlist es) from
                by simpa [Heap.lookupCell] using hlook]
              dsimp only
              have step1 : readValL ((hr.1.alloc (.vlist hr.2)).1).cells f hr.2
                  = readValL hr.1.cells f hr.2 := by
                refine ((readVal_agree hr.1.cells _ hr.1.next (wf_children hwf1)
                  ?_ f).2.1) hr.2 (fun x hx => (hbL x hx).2)
                intro b hb
                simp only [Heap.alloc]
                exact lookup_cons_ne_addr _ _ _ _ (by omega)
              have step2 : readValL hr.1.cells f hr.2 = readValL h.cells f es :=
                ih.2.1 es h hr hwf hes hcl f
              rw [step1, step2]
        | vdict kvs =>
          dsimp only at hcopy
          cases hcd : deepcopyD fuel h kvs with
          | none => rw [hcd] at hcopy; cases hcopy
          | some hr =>
            rw [hcd] at hcopy
            dsimp only at hcopy
            injection hcopy with h1
            subst h1
            have hkvs : ∀ kv ∈ kvs, kv.2 < h.next := by
              intro kv hkv
              have hin : kv.2 ∈ (PyObj.vdict kvs).childAddrs := by
                simp only [PyObj.childAddrs]
                exact List.mem_map.mpr ⟨kv, hkv, rfl⟩
              have hlt := (hwf (a, .vdict kvs) hmem).2 kv.2 hin
              omega
            obtain ⟨heD, hbD⟩ := (deepcopy_spec fuel).2.2 kvs h hr hcd
            have hwf1 : hr.1.wf := heD.2.2.2 hwf
            intro f
            cases f with
            | zero => simp [readVal]
            | succ f =>
              simp only [readVal, lookup_alloc_self]
              rw [show h.cells.lookup a = some (PyObj.vdict kvs) from
                by simpa [Heap.lookupCell] using hlook]
              dsimp only
              have step1 : readValD ((hr.1.alloc (.vdict hr.2)).1).cells f hr.2
                  = readValD hr.1.cells f hr.2 := by
                refine ((readVal_agree hr.1.cells _ hr.1.next (wf_children hwf1)
                  ?_ f).2.2) hr.2 (fun x hx => (hbD x hx).2)
                intro b hb
                simp only [Heap.alloc]
                exact lookup_cons_ne_addr _ _ _ _ (by omega)
              have step2 : readValD hr.1.cells f hr.2 = readValD h.cells f kvs :=
                ih.2.2 kvs h hr hwf hkvs hcd f
              rw [step1, step2]
    have hL : ∀ es h res, h.wf → (∀ e ∈ es, e < h.next) →
        deepcopyL (fuel + 1) h es = some res →
        ∀ f, readValL res.1.cells f res.2 = readValL h.cells f es := by
      intro es
      induction es with
      | nil =>
        intro h res _ _ hcopy
        simp only [deepcopyL] at hcopy
        injection hcopy with h1
        subst h1
        intro f
        rfl
      | cons e t iht =>
        intro h res hwf hbnd hcopy
        simp only [deepcopyL] at hcopy
        cases hce : deepcopyA (fuel + 1) h e with
        | none => rw [hce] at hcopy; cases hcopy
        | some hr =>
          rw [hce] at hcopy
          dsimp only at hcopy
          cases hct : deepcopyL (fuel + 1) hr.1 t with
          | none => rw [hct] at hcopy; cases hcopy
          | some hrs =>
            rw [hct] at hcopy
            dsimp only at hcopy
            injection hcopy with h1
            subst h1
            obtain ⟨heA, hbA1, hbA2⟩ := (deepcopy_spec (fuel + 1)).1 h e hr hce
            obtain ⟨heL, hbL⟩ := (deepcopy_spec (fuel + 1)).2.1 t hr.1 hrs hct
            have hwf1 : hr.1.wf := heA.2.2.2 hwf
            intro f
            have E1 : readVal hrs.1.cells f hr.2 = readVal h.cells f e := by
              have b1 : readVal hrs.1.cells f hr.2 = readVal hr.1.cells f hr.2 :=
                (readVal_agree hr.1.cells hrs.1.cells hr.1.next
                  (wf_children hwf1) (fun b hb => heL.2.2.1 b hb) f).1 hr.2 hbA2
              rw [b1, hA h e hr hwf hce f]
            have E2 : readValL hrs.1.cells f hrs.2 = readValL h.cells f t := by
              have b1 : readValL hrs.1.cells f hrs.2 = readValL hr.1.cells f t :=
                iht hr.1 hrs hwf1
                  (fun x hx => lt_of_lt_of_le (hbnd x (List.mem_cons_of_mem e hx))
                    heA.1) hct f
              have b2 : readValL hr.1.cells f t = readValL h.cells f t :=
                (readVal_agree h.cells hr.1.cells h.next (wf_children hwf)
                  (fun b hb => heA.2.2.1 b hb) f).2.1 t
                  (fun x hx => hbnd x (List.mem_cons_of_mem e hx))
              rw [b1, b2]
            simp only [readValL]
            rw [E1, E2]
    have hD : ∀ kvs h res, h.wf → (∀ kv ∈ kvs, kv.2 < h.next) →
        deepcopyD (fuel + 1) h kvs = some res →
        ∀ f, readValD res.1.cells f res.2 = readValD h.cells f kvs := by
      intro kvs
      induction kvs with
      | nil =>
        intro h res _ _ hcopy
        simp only [deepcopyD] at hcopy
        injection hcopy with h1
        subst h1
        intro f
        rfl
      | cons kv t iht =>
        intro h res hwf hbnd hcopy
        simp only [deepcopyD] at hcopy
        cases hce : deepcopyA (fuel + 1) h kv.2 with
        | none => rw [hce] at hcopy; cases hcopy
        | some hr =>
          rw [hce] at hcopy
          dsimp only at hcopy
          cases hct : deepcopyD (fuel + 1) hr.1 t with
          | none => rw [hct] at hcopy; cases hcopy
          | some hrs =>
            rw [hct] at hcopy
            dsimp only at hcopy
            injection hcopy with h1
            subst h1
            obtain ⟨heA, hbA1, hbA2⟩ := (deepcopy_spec (fuel + 1)).1 h kv.2 hr hce
            obtain ⟨heD, hbD⟩ := (deepcopy_spec (fuel + 1)).2.2 t hr.1 hrs hct
            have hwf1 : hr.1.wf := heA.2.2.2 hwf
            intro f
            have E1 : readVal hrs.1.cells f hr.2 = readVal h.cells f kv.2 := by
              have b1 : readVal hrs.1.cells f hr.2 = readVal hr.1.cells f hr.2 :=
                (readVal_agree hr.1.cells hrs.1.cells hr.1.next
                  (wf_children hwf1) (fun b hb => heD.2.2.1 b hb) f).1 hr.2 hbA2
              rw [b1, hA h kv.2 hr hwf hce f]
            have E2 : readValD hrs.1.cells f hrs.2 = readValD h.cells f t := by
              have b1 : readValD hrs.1.cells f hrs.2 = readValD hr.1.cells f t :=
                iht hr.1 hrs hwf1
                  (fun x hx => lt_of_lt_of_le (hbnd x (List.mem_cons_of_mem kv hx))
                    heA.1) hct f
              have b2 : readValD hr.1.cells f t = readValD h.cells f t :=
                (readVal_agree h.cells hr.1.cells h.next (wf_children hwf)
                  (fun b hb => heA.2.2.1 b hb) f).2.2 t
                  (fun x hx => hbnd x (List.mem_cons_of_mem kv hx))
              rw [b1, b2]
            simp only [readValD]
            rw [E1, E2]
    exact ⟨hA, hL, hD⟩

/-- Claim C7: the in-memory backend's get returns a deep copy of the
stored object graph, never the live stored reference — the returned
address and every cell the copy created are fresh, the copy reads back
exactly the stored value, mutating any freshly created object (so in
particular any part of the returned copy) leaves the stored value
unchanged, and a subsequent get after such a mutation still returns the
originally stored value. -/
theorem C7_get_deep_copy_isolation (self : InMemoryKVS) (h : Heap)
    (st : HeapStore) (k : String) (a : Nat) (h2 : Heap) (r : Nat)
    (hwf : h.wf) (hk : st.lookup k = some a)
    (hget : InMemoryKVS.getHeap self h st k = some (h2, r)) :
    h.next ≤ r
    ∧ r ≠ a
    ∧ (∀ c ∈ h2.cells, c ∈ h.cells ∨ h.next ≤ c.1)
    ∧ (∀ f, readVal h2.cells f r = readVal h.cells f a)
    ∧ (∀ b o, h.next ≤ b →
        (∀ f, readVal ((h2.writeObj b o).cells) f a = readVal h.cells f a)
        ∧ (∀ h3 r3,
            InMemoryKVS.getHeap self (h2.writeObj b o) st k = some (h3, r3) →
            (h2.writeObj b o).wf →
            ∀ f, readVal h3.cells f r3 = readVal h.cells f a)) := by
  simp only [InMemoryKVS.getHeap, hk] at hget
  have ha : a < h.next := by
    rcases hn : h.next with _ | f
    · rw [hn] at hget
      simp [deepcopyA] at hget
    · rw [hn] at hget
      simp only [deepcopyA] at hget
      cases hlook : h.lookupCell a with
      | none => rw [hlook] at hget; cases hget
      | some o =>
        have hmem := lookupCell_mem h.cells a o
          (by simpa [Heap.lookupCell] using hlook)
        exact hn ▸ (hwf (a, o) hmem).1
  obtain ⟨hext, hr1, hr2⟩ := (deepcopy_spec h.next).1 h a (h2, r) hget
  dsimp only at hext hr1 hr2
  have hreads := (deepcopy_reads h.next).1 h a (h2, r) hwf hget
  have hmut : ∀ b o, h.next ≤ b →
      ∀ f, readVal ((h2.writeObj b o).cells) f a = readVal h.cells f a := by
    intro b o hb f
    have hag : ∀ b2, b2 < h.next →
        ((h2.writeObj b o).cells).lookup b2 = h.cells.lookup b2 := by
      intro b2 hb2
      have hne : b2 ≠ b := by omega
      simp only [Heap.writeObj]
      rw [lookup_cons_ne_addr _ _ _ _ hne]
      exact hext.2.2.1 b2 hb2
    exact (readVal_agree h.cells ((h2.writeObj b o).cells) h.next
      (wf_children hwf) hag f).1 a ha
  have hne : r ≠ a := by omega
  refine ⟨hr1, hne, hext.2.1, hreads, ?_⟩
  intro b o hb
  refine ⟨hmut b o hb, ?_⟩
  intro h3 r3 hget3 hwfM
  simp only [InMemoryKVS.getHeap, hk] at hget3
  have hreads3 := (deepcopy_reads (h2.writeObj b o).next).1 (h2.writeObj b o)
    a (h3, r3) hwfM hget3
  intro f
  rw [hreads3 f]
  exact hmut b o hb f

/-- Witness for C7 on a one-cell heap holding 5 under key hi: the copy
lands at the fresh address 1, reads back 5, and overwriting the copy
with 9 leaves the stored cell reading 5. -/
theorem C7_get_deep_copy_isolation_witness :
    InMemoryKVS.getHeap ⟨0⟩ (Heap.mk [(0, PyObj.vint 5)] 1) [("hi", 0)] "hi"
      = some (Heap.mk [(1, PyObj.vint 5), (0, PyObj.vint 5)] 2, 1)
    ∧ (Heap.mk [(0, PyObj.vint 5)] 1).next ≤ 1
    ∧ (1 : Nat) ≠ 0
    ∧ readVal [(1, PyObj.vint 5), (0, PyObj.vint 5)] 1 1
        = readVal [(0, PyObj.vint 5)] 1 0
    ∧ ∀ f,
        readVal (((Heap.mk [(1, PyObj.vint 5), (0, PyObj.vint 5)] 2).writeObj
          1 (PyObj.vint 9)).cells) f 0
        = readVal [(0, PyObj.vint 5)] f 0 := by
  have hwf : (Heap.mk [(0, PyObj.vint 5)] 1).wf := by
    intro c hc
    simp at hc
    subst hc
    exact ⟨by decide, by decide⟩
  have hget : InMemoryKVS.getHeap ⟨0⟩ (Heap.mk [(0, PyObj.vint 5)] 1)
      [("hi", 0)] "hi"
      = some (Heap.mk [(1, PyObj.vint 5), (0, PyObj.vint 5)] 2, 1) := by
    simp [InMemoryKVS.getHeap, deepcopyA, Heap.lookupCell, Heap.alloc,
      List.lookup]
  have H := C7_get_deep_copy_isolation ⟨0⟩ (Heap.mk [(0, PyObj.vint 5)] 1)
    [("hi", 0)] "hi" 0 (Heap.mk [(1, PyObj.vint 5), (0, PyObj.vint 5)] 2) 1
    hwf rfl hget
  exact ⟨hget, H.1, H.2.1, H.2.2.2.1 1,
    fun f => (H.2.2.2.2 1 (PyObj.vint 9) (by omega)).1 f⟩
